import Mathlib

/-!
Shallow embedding of the recursive-descent parser in `src/syntax.rs` of the
`rubf` repository, together with theorems settling the specification claims.

The parser state (`Source`) is the borrowed token slice plus a cursor; rules
are state-passing functions returning `Except`.  The Rust functions recurse
without a structural measure, so the embedding threads an explicit fuel
argument; `none` marks fuel exhaustion, and we prove below that the fuel
chosen in `parser` always suffices, so the fuel is a faithful termination
argument rather than a behavioural change.
-/

namespace Rubf

/-- Modelled from the spec: the repository's symbol module (`crate::symbol`,
declaring `Symbol`) is not under `src/`; only `src/syntax.rs` is.  The spec
requires a finite token alphabet with distinguished `LeftBracket`,
`RightBracket` and end-of-input (`EoF`) markers, every other value being a
plain operator symbol.  `PlusOne` and `MinusOne` are the plain operator
symbols named by the parser's own test. -/
inductive Symbol where
  | LeftBracket
  | RightBracket
  | EoF
  | PlusOne
  | MinusOne
deriving DecidableEq, Repr

/-- `Expression` from `src/syntax.rs`: `Loop(Vec<Expression>)` or
`Operator(Symbol)`. -/
inductive Expression where
  | Loop : List Expression → Expression
  | Operator : Symbol → Expression
deriving Repr

/-- The `anyhow` error values constructed in `src/syntax.rs`, one constructor
per distinct message: `parseError` is the fixed `anyhow!("parse error")`
created by the `parse` wrapper, and `parseErrorContext` is the
`anyhow!("parse error: ").context(lp_err).context(sym_err)` value built in
`exp`. -/
inductive ParseErr where
  | parseError
  | expectLeftBracket (got : Symbol)
  | expectRightBracket (got : Symbol)
  | expectSymbols (got : Symbol)
  | expectAtLeastOneExpression
  | parseErrorContext (lp_err sym_err : ParseErr)
deriving DecidableEq, Repr

/-- Classifies the "missing right bracket" diagnostic
(`anyhow!("Expect right bracket, but got {:?}", symbol)`). -/
def ParseErr.isMissingRightBracket : ParseErr → Bool
  | ParseErr.expectRightBracket _ => true
  | _ => false

/-- `Source<'a>` from `src/syntax.rs`: the borrowed token slice plus a
cursor. -/
structure Source where
  code : List Symbol
  cursor : Nat
deriving Repr

/-- `type Snapshot = usize`. -/
abbrev Snapshot := Nat

def Source.new (code : List Symbol) : Source :=
  { code := code, cursor := 0 }

/-- `Source::next_symbol`: reads `self.code.get(self.cursor)` with `EoF` as
the past-the-end fallback, then increments the cursor. -/
def Source.next_symbol (s : Source) : Symbol × Source :=
  (s.code.getD s.cursor Symbol.EoF, { s with cursor := s.cursor + 1 })

/-- `Source::snapshot`. -/
def Source.snapshot (s : Source) : Snapshot :=
  s.cursor

/-- `Source::restore`. -/
def Source.restore (s : Source) (snapshot : Snapshot) : Source :=
  { s with cursor := snapshot }

/-- The result-handling part of the `parse` wrapper in `src/syntax.rs`:
on success the rule's result passes through unchanged; on failure the cursor
is restored to the snapshot and the rule's error is replaced by the fresh
generic `anyhow!("parse error")`.  (`none` = fuel exhaustion of the rule.) -/
def attemptR {α : Type} (snapshot : Snapshot) :
    Option (Except ParseErr α × Source) → Option (Except ParseErr α × Source)
  | none => none
  | some (Except.ok v, p) => some (Except.ok v, p)
  | some (Except.error _, p) => some (Except.error ParseErr.parseError, p.restore snapshot)

/-- `fn parse<T>(program, rule)` from `src/syntax.rs`: snapshot, run the
rule, restore on failure. -/
def parse {α : Type} (program : Source)
    (rule : Source → Option (Except ParseErr α × Source)) :
    Option (Except ParseErr α × Source) :=
  attemptR program.snapshot (rule program)

/-- `fn sym(program)` from `src/syntax.rs`: read one token; brackets and
`EoF` are rejected, any other token becomes `Operator`. -/
def sym (program : Source) : Option (Except ParseErr Expression × Source) :=
  let s := program.next_symbol
  match s.1 with
  | Symbol.RightBracket => some (Except.error (ParseErr.expectSymbols s.1), s.2)
  | Symbol.LeftBracket => some (Except.error (ParseErr.expectSymbols s.1), s.2)
  | Symbol.EoF => some (Except.error (ParseErr.expectSymbols s.1), s.2)
  | _ => some (Except.ok (Expression.Operator s.1), s.2)

mutual

/-- `fn exp(program)` from `src/syntax.rs`: ordered choice, `lp` through the
`parse` wrapper first, then `sym`; if both fail, the two (already
generic) wrapper errors are wrapped in the context error. -/
def exp : Nat → Source → Option (Except ParseErr Expression × Source)
  | 0, _ => none
  | fuel+1, program =>
    match attemptR program.snapshot (lp fuel program) with
    | none => none
    | some (Except.ok e, p) => some (Except.ok e, p)
    | some (Except.error lp_err, p1) =>
      match attemptR p1.snapshot (sym p1) with
      | none => none
      | some (Except.ok e, p) => some (Except.ok e, p)
      | some (Except.error sym_err, p2) =>
        some (Except.error (ParseErr.parseErrorContext lp_err sym_err), p2)

/-- `fn exp_list(program)` from `src/syntax.rs`: greedy repetition of
`parse(program, exp)` (the `while let` loop is `exp_list_loop`), then the
non-emptiness check. -/
def exp_list : Nat → Source → Option (Except ParseErr (List Expression) × Source)
  | 0, _ => none
  | fuel+1, program =>
    match exp_list_loop fuel program [] with
    | none => none
    | some (result, p) =>
      if result.isEmpty then some (Except.error ParseErr.expectAtLeastOneExpression, p)
      else some (Except.ok result, p)

/-- The `while let Ok(exp) = parse(program, exp)` loop inside `exp_list`:
accumulate successes in order, stop (swallowing the error) at the first
failure, whose cursor the wrapper has restored. -/
def exp_list_loop : Nat → Source → List Expression → Option (List Expression × Source)
  | 0, _, _ => none
  | fuel+1, program, acc =>
    match attemptR program.snapshot (exp fuel program) with
    | none => none
    | some (Except.ok e, p) => exp_list_loop fuel p (acc ++ [e])
    | some (Except.error _, p) => some (acc, p)

/-- `fn lp(program)` from `src/syntax.rs`: left bracket, expression list via
the `parse` wrapper (its failure propagated by `?`), right bracket. -/
def lp : Nat → Source → Option (Except ParseErr Expression × Source)
  | 0, _ => none
  | fuel+1, program =>
    let s1 := program.next_symbol
    if Symbol.LeftBracket ≠ s1.1 then
      some (Except.error (ParseErr.expectLeftBracket s1.1), s1.2)
    else
      match attemptR s1.2.snapshot (exp_list fuel s1.2) with
      | none => none
      | some (Except.error e, p2) => some (Except.error e, p2)
      | some (Except.ok lst, p2) =>
        let s2 := p2.next_symbol
        if Symbol.RightBracket ≠ s2.1 then
          some (Except.error (ParseErr.expectRightBracket s2.1), s2.2)
        else some (Except.ok (Expression.Loop lst), s2.2)

end

/-- The `loop` inside `pub fn parser` of `src/syntax.rs`: accumulate
successes of `parse(source, exp)`; on failure read one more token and decide
success (end of input) versus surfacing the wrapper's error. -/
def parser_loop : Nat → Source → List Expression → Option (Except ParseErr (List Expression) × Source)
  | 0, _, _ => none
  | fuel+1, source, result =>
    match attemptR source.snapshot (exp fuel source) with
    | none => none
    | some (Except.ok e, p) => parser_loop fuel p (result ++ [e])
    | some (Except.error e, p) =>
      let s := p.next_symbol
      if s.1 = Symbol.EoF then some (Except.ok result, s.2)
      else some (Except.error e, s.2)

/-- `pub fn parser(program)` from `src/syntax.rs`.  The fuel
`4 * length + 3` is proved sufficient below (`parser_isSome`), so the
`Option` layer never actually yields `none`. -/
def parser (program : List Symbol) : Option (Except ParseErr (List Expression)) :=
  (parser_loop (4 * program.length + 3) (Source.new program) []).map Prod.fst

/-- A symbol is plain iff it is none of the three distinguished markers. -/
def Symbol.isPlain : Symbol → Bool
  | Symbol.LeftBracket => false
  | Symbol.RightBracket => false
  | Symbol.EoF => false
  | _ => true

mutual

/-- Every `Loop` anywhere in the expression carries a non-empty list. -/
def noEmptyLoop : Expression → Bool
  | Expression.Operator _ => true
  | Expression.Loop l => !l.isEmpty && noEmptyLoopList l

def noEmptyLoopList : List Expression → Bool
  | [] => true
  | e :: es => noEmptyLoop e && noEmptyLoopList es

end

mutual

/-- Every `Operator` anywhere in the expression wraps a plain symbol. -/
def opsPlain : Expression → Bool
  | Expression.Operator s => s.isPlain
  | Expression.Loop l => opsPlainList l

def opsPlainList : List Expression → Bool
  | [] => true
  | e :: es => opsPlain e && opsPlainList es

end

mutual

/-- The token sequence an expression was parsed from. -/
def flattenExp : Expression → List Symbol
  | Expression.Operator s => [s]
  | Expression.Loop l => Symbol.LeftBracket :: (flattenList l ++ [Symbol.RightBracket])

def flattenList : List Expression → List Symbol
  | [] => []
  | e :: es => flattenExp e ++ flattenList es

end

/-- Post-condition of a successful rule run from state `s` to state `p`
producing `e` : well-formed output, bracket balance, and the consumed
tokens are exactly `flattenExp e`. -/
def goodExp (s p : Source) (e : Expression) : Prop :=
  opsPlain e = true ∧ noEmptyLoop e = true ∧
  (flattenExp e).count Symbol.LeftBracket = (flattenExp e).count Symbol.RightBracket ∧
  p.cursor = s.cursor + (flattenExp e).length ∧
  s.code.drop s.cursor = flattenExp e ++ s.code.drop p.cursor

/-- As `goodExp`, for a list of expressions parsed in sequence. -/
def goodList (s p : Source) (l : List Expression) : Prop :=
  opsPlainList l = true ∧ noEmptyLoopList l = true ∧
  (flattenList l).count Symbol.LeftBracket = (flattenList l).count Symbol.RightBracket ∧
  p.cursor = s.cursor + (flattenList l).length ∧
  s.code.drop s.cursor = flattenList l ++ s.code.drop p.cursor

/-- A sample parsing rule that fails after consuming five tokens; used to
exercise the attempt wrapper's restoration guarantee. -/
def probeRule (s : Source) : Option (Except ParseErr Expression × Source) :=
  some (Except.error (ParseErr.expectSymbols Symbol.EoF), { s with cursor := s.cursor + 5 })

/-! ## Basic lemmas about the cursor and the attempt wrapper -/

theorem Source.restore_cursor (s : Source) (n : Snapshot) : (s.restore n).cursor = n := rfl

theorem Source.restore_code (s : Source) (n : Snapshot) : (s.restore n).code = s.code := rfl

theorem Source.next_symbol_fst (s : Source) :
    s.next_symbol.1 = s.code.getD s.cursor Symbol.EoF := rfl

theorem Source.next_symbol_snd (s : Source) :
    s.next_symbol.2 = { s with cursor := s.cursor + 1 } := rfl

theorem attemptR_ok {α : Type} {snap : Snapshot}
    {o : Option (Except ParseErr α × Source)} {v : α} {p : Source}
    (h : attemptR snap o = some (Except.ok v, p)) : o = some (Except.ok v, p) := by
  rcases o with _ | ⟨r, p0⟩
  · simp [attemptR] at h
  · rcases r with v0 | e0 <;> simp_all [attemptR]

theorem attemptR_error {α : Type} {snap : Snapshot}
    {o : Option (Except ParseErr α × Source)} {e : ParseErr} {p : Source}
    (h : attemptR snap o = some (Except.error e, p)) :
    e = ParseErr.parseError ∧ ∃ e0 p0, o = some (Except.error e0, p0) ∧ p = p0.restore snap := by
  rcases o with _ | ⟨r, p0⟩
  · simp [attemptR] at h
  · rcases r with e0 | v0
    · simp only [attemptR, Option.some.injEq, Prod.mk.injEq, Except.error.injEq] at h
      exact ⟨h.1.symm, e0, p0, rfl, h.2.symm⟩
    · simp [attemptR] at h

theorem attemptR_isSome {α : Type} (snap : Snapshot)
    {o : Option (Except ParseErr α × Source)} (h : o.isSome) : (attemptR snap o).isSome := by
  rcases o with _ | ⟨r, p0⟩
  · simp at h
  · rcases r with v0 | e0 <;> simp [attemptR]

/-- `sym` always returns `some`: it consumes exactly one token, keeps the
code, succeeds with `Operator` exactly on plain symbols and fails on the
three distinguished markers. -/
theorem sym_spec (s : Source) :
    sym s = some
      (if (s.code.getD s.cursor Symbol.EoF).isPlain
        then Except.ok (Expression.Operator (s.code.getD s.cursor Symbol.EoF))
        else Except.error (ParseErr.expectSymbols (s.code.getD s.cursor Symbol.EoF)),
       { s with cursor := s.cursor + 1 }) := by
  rcases h : s.code.getD s.cursor Symbol.EoF <;>
    simp only [sym, Source.next_symbol, h, Symbol.isPlain] <;> rfl

theorem flattenExp_ne_nil (e : Expression) : flattenExp e ≠ [] := by
  cases e <;> simp [flattenExp]

theorem Symbol.isPlain_iff (x : Symbol) :
    x.isPlain = true ↔ x ≠ Symbol.LeftBracket ∧ x ≠ Symbol.RightBracket ∧ x ≠ Symbol.EoF := by
  cases x <;> simp [Symbol.isPlain]

theorem getD_lt_of_ne_default {l : List Symbol} {n : Nat}
    (h : l.getD n Symbol.EoF ≠ Symbol.EoF) : n < l.length := by
  by_contra hn
  exact h (List.getD_eq_default l Symbol.EoF (Nat.le_of_not_lt hn))

theorem drop_eq_getD_cons {l : List Symbol} {n : Nat}
    (h : l.getD n Symbol.EoF ≠ Symbol.EoF) :
    l.drop n = l.getD n Symbol.EoF :: l.drop (n + 1) := by
  have hlt := getD_lt_of_ne_default h
  rw [List.drop_eq_getElem_cons hlt, List.getD_eq_getElem l Symbol.EoF hlt]

/-! ## The main run induction: code preservation, output well-formedness,
bracket balance, and the consumed-tokens (`flatten`) characterisation. -/

theorem run_sound : ∀ fuel : Nat,
    (∀ s r p, exp fuel s = some (r, p) → p.code = s.code ∧
      ∀ e, r = Except.ok e → goodExp s p e)
    ∧ (∀ s r p, lp fuel s = some (r, p) → p.code = s.code ∧
      ∀ e, r = Except.ok e → goodExp s p e)
    ∧ (∀ s r p, exp_list fuel s = some (r, p) → p.code = s.code ∧
      ∀ l, r = Except.ok l → l ≠ [] ∧ goodList s p l)
    ∧ (∀ s acc l p, exp_list_loop fuel s acc = some (l, p) → p.code = s.code ∧
      ∃ nw, l = acc ++ nw ∧ goodList s p nw) := by
  intro fuel
  induction fuel with
  | zero =>
    refine ⟨?_, ?_, ?_, ?_⟩
    · intro s r p h; simp [exp] at h
    · intro s r p h; simp [lp] at h
    · intro s r p h; simp [exp_list] at h
    · intro s acc l p h; simp [exp_list_loop] at h
  | succ fuel ih =>
    obtain ⟨ihExp, ihLp, ihEL, ihLoop⟩ := ih
    have hexp : ∀ s r p, exp (fuel+1) s = some (r, p) → p.code = s.code ∧
        ∀ e, r = Except.ok e → goodExp s p e := by
      intro s r p h
      simp only [exp] at h
      split at h
      · exact absurd h (by simp)
      · next e p' heq =>
        simp only [Option.some.injEq, Prod.mk.injEq] at h
        obtain ⟨hr, hp⟩ := h
        subst hp; subst hr
        have hlp := attemptR_ok heq
        obtain ⟨hcode, hgood⟩ := ihLp s _ _ hlp
        exact ⟨hcode, fun e' he' => by cases he'; exact hgood _ rfl⟩
      · next lp_err p1 heq1 =>
        obtain ⟨-, e0, p0, hlp0, hp1⟩ := attemptR_error heq1
        have hp0code : p0.code = s.code := (ihLp s _ _ hlp0).1
        have hp1code : p1.code = s.code := by rw [hp1, Source.restore_code, hp0code]
        have hp1cur : p1.cursor = s.cursor := by rw [hp1, Source.restore_cursor]; rfl
        split at h
        · exact absurd h (by simp)
        · next e p' heq2 =>
          simp only [Option.some.injEq, Prod.mk.injEq] at h
          obtain ⟨hr, hp⟩ := h
          subst hp; subst hr
          have hsym := attemptR_ok heq2
          rw [sym_spec] at hsym
          simp only [Option.some.injEq, Prod.mk.injEq] at hsym
          obtain ⟨hif, hp'⟩ := hsym
          by_cases hplain : (p1.code.getD p1.cursor Symbol.EoF).isPlain = true
          · rw [if_pos hplain] at hif
            obtain ⟨hne1, hne2, hne3⟩ := (Symbol.isPlain_iff _).mp hplain
            cases hif
            have hp'code : p'.code = s.code := by rw [← hp']; exact hp1code
            have hp'cur : p'.cursor = s.cursor + 1 := by
              rw [← hp']; simp [hp1cur]
            refine ⟨hp'code, fun e' he' => ?_⟩
            cases he'
            have hx : s.code.getD s.cursor Symbol.EoF = p1.code.getD p1.cursor Symbol.EoF := by
              rw [hp1code, hp1cur]
            refine ⟨?_, ?_, ?_, ?_, ?_⟩
            · simp only [opsPlain]; exact hplain
            · simp [noEmptyLoop]
            · simp only [flattenExp, List.count_cons, List.count_nil, beq_iff_eq,
                Nat.zero_add]
              rw [if_neg hne1, if_neg hne2]
            · simp only [flattenExp, List.length_cons, List.length_nil]
              omega
            · simp only [flattenExp, List.cons_append, List.nil_append]
              rw [hp'cur, drop_eq_getD_cons (by rw [hx]; exact hne3), hx]
          · rw [if_neg hplain] at hif
            exact absurd hif (by simp)
        · next sym_err p2 heq2 =>
          simp only [Option.some.injEq, Prod.mk.injEq] at h
          obtain ⟨hr, hp⟩ := h
          subst hp
          obtain ⟨-, e2, p2', hsym0, hp2⟩ := attemptR_error heq2
          rw [sym_spec] at hsym0
          simp only [Option.some.injEq, Prod.mk.injEq] at hsym0
          have hp2code : p2.code = s.code := by
            rw [hp2, Source.restore_code, ← hsym0.2]
            exact hp1code
          exact ⟨hp2code, fun e' he' => by rw [← hr] at he'; exact absurd he' (by simp)⟩
    have hlp : ∀ s r p, lp (fuel+1) s = some (r, p) → p.code = s.code ∧
        ∀ e, r = Except.ok e → goodExp s p e := by
      intro s r p h
      simp only [lp] at h
      split at h
      · next hne =>
        simp only [Option.some.injEq, Prod.mk.injEq] at h
        obtain ⟨hr, hp⟩ := h
        subst hp
        refine ⟨rfl, fun e' he' => by rw [← hr] at he'; exact absurd he' (by simp)⟩
      · next hL =>
        have hLeq : s.code.getD s.cursor Symbol.EoF = Symbol.LeftBracket := by
          have := not_not.mp (by simpa using hL)
          exact this.symm
        split at h
        · exact absurd h (by simp)
        · next e2 p2 heq =>
          obtain ⟨-, e0, p0, hel0, hp2⟩ := attemptR_error heq
          have hp0code : p0.code = s.code := (ihEL _ _ _ hel0).1
          simp only [Option.some.injEq, Prod.mk.injEq] at h
          obtain ⟨hr, hp⟩ := h
          subst hp
          refine ⟨by rw [hp2, Source.restore_code, hp0code], fun e' he' => by
            rw [← hr] at he'; exact absurd he' (by simp)⟩
        · next lst p2 heq =>
          have hel := attemptR_ok heq
          obtain ⟨hp2code, hELgood⟩ := ihEL _ _ _ hel
          obtain ⟨hne, hgl⟩ := hELgood lst rfl
          have hp2code' : p2.code = s.code := hp2code
          split at h
          · next hR =>
            simp only [Option.some.injEq, Prod.mk.injEq] at h
            obtain ⟨hr, hp⟩ := h
            subst hp
            refine ⟨by simpa using hp2code', fun e' he' => by
              rw [← hr] at he'; exact absurd he' (by simp)⟩
          · next hR =>
            have hReq : p2.code.getD p2.cursor Symbol.EoF = Symbol.RightBracket := by
              have := not_not.mp (by simpa using hR)
              exact this.symm
            simp only [Option.some.injEq, Prod.mk.injEq] at h
            obtain ⟨hr, hp⟩ := h
            subst hp; subst hr
            obtain ⟨hops, hnoe, hcnt, hcur, hdrop⟩ := hgl
            have hscur : s.code.drop s.cursor =
                Symbol.LeftBracket :: s.code.drop (s.cursor + 1) := by
              have := drop_eq_getD_cons (l := s.code) (n := s.cursor)
                (by rw [hLeq]; simp)
              rw [hLeq] at this; exact this
            have hp2drop : s.code.drop p2.cursor =
                Symbol.RightBracket :: s.code.drop (p2.cursor + 1) := by
              have := drop_eq_getD_cons (l := p2.code) (n := p2.cursor)
                (by rw [hReq]; simp)
              rw [hReq, hp2code'] at this; exact this
            refine ⟨by simpa using hp2code', fun e' he' => ?_⟩
            cases he'
            refine ⟨?_, ?_, ?_, ?_, ?_⟩
            · simpa [opsPlain] using hops
            · simp [noEmptyLoop, hnoe, List.isEmpty_iff, hne]
            · simp only [flattenExp, List.count_cons, List.count_append, List.count_nil]
              simp only [beq_iff_eq]
              rw [hcnt]
              simp
            · simp only [Source.next_symbol, flattenExp, List.length_cons, List.length_append,
                List.length_cons, List.length_nil]
              have : p2.cursor = s.cursor + 1 + (flattenList lst).length := by
                simpa [Source.next_symbol] using hcur
              omega
            · simp only [flattenExp, List.cons_append, Source.next_symbol]
              rw [hscur]
              have hdrop' : s.code.drop (s.cursor + 1) =
                  flattenList lst ++ s.code.drop p2.cursor := by
                simpa [Source.next_symbol] using hdrop
              rw [hdrop', hp2drop]
              simp
    have hel : ∀ s r p, exp_list (fuel+1) s = some (r, p) → p.code = s.code ∧
        ∀ l, r = Except.ok l → l ≠ [] ∧ goodList s p l := by
      intro s r p h
      simp only [exp_list] at h
      split at h
      · exact absurd h (by simp)
      · next result p0 heq =>
        obtain ⟨hp0code, nw, hnw, hgl⟩ := ihLoop _ _ _ _ heq
        split at h
        · next hemp =>
          simp only [Option.some.injEq, Prod.mk.injEq] at h
          obtain ⟨hr, hp⟩ := h
          subst hp
          exact ⟨hp0code, fun l hl => by rw [← hr] at hl; exact absurd hl (by simp)⟩
        · next hemp =>
          simp only [Option.some.injEq, Prod.mk.injEq] at h
          obtain ⟨hr, hp⟩ := h
          subst hp
          refine ⟨hp0code, fun l hl => ?_⟩
          rw [← hr] at hl
          cases hl
          simp only [List.nil_append] at hnw
          subst hnw
          exact ⟨by simpa [List.isEmpty_iff] using hemp, hgl⟩
    have hloop : ∀ s acc l p, exp_list_loop (fuel+1) s acc = some (l, p) → p.code = s.code ∧
        ∃ nw, l = acc ++ nw ∧ goodList s p nw := by
      intro s acc l p h
      simp only [exp_list_loop] at h
      split at h
      · exact absurd h (by simp)
      · next e p' heq =>
        have hexp0 := attemptR_ok heq
        obtain ⟨hp'code, hge⟩ := ihExp _ _ _ hexp0
        obtain ⟨hops, hnoe, hcnt, hcur, hdrop⟩ := hge e rfl
        obtain ⟨hpcode, nw', hnw', hgl⟩ := ihLoop _ _ _ _ h
        obtain ⟨hops', hnoe', hcnt', hcur', hdrop'⟩ := hgl
        refine ⟨by rw [hpcode, hp'code], e :: nw', by simp [hnw'], ?_, ?_, ?_, ?_, ?_⟩
        · simp [opsPlainList, hops, hops']
        · simp [noEmptyLoopList, hnoe, hnoe']
        · simp only [flattenList, List.count_append]
          omega
        · simp only [flattenList, List.length_append]
          rw [hcur', hcur]
          omega
        · simp only [flattenList, List.append_assoc]
          rw [hdrop]
          congr 1
          rw [← hp'code]
          exact hdrop'
      · next e1 p1 heq =>
        obtain ⟨-, e0, p0, hexp0, hp1⟩ := attemptR_error heq
        have hp0code : p0.code = s.code := (ihExp _ _ _ hexp0).1
        simp only [Option.some.injEq, Prod.mk.injEq] at h
        obtain ⟨hl, hp⟩ := h
        subst hp; subst hl
        refine ⟨by rw [hp1, Source.restore_code, hp0code], [], by simp, ?_, ?_, ?_, ?_, ?_⟩
        · simp [opsPlainList]
        · simp [noEmptyLoopList]
        · simp [flattenList]
        · simp [flattenList, hp1, Source.restore_cursor, Source.snapshot]
        · simp [flattenList, hp1, Source.restore_cursor, Source.snapshot]
    exact ⟨hexp, hlp, hel, hloop⟩

/-- A successful `exp` keeps the code, strictly advances the cursor, and
never moves it past the end of the input. -/
theorem exp_progress {fuel : Nat} {s : Source} {e : Expression} {p : Source}
    (h : exp fuel s = some (Except.ok e, p)) :
    p.code = s.code ∧ s.cursor < p.cursor ∧ p.cursor ≤ s.code.length := by
  obtain ⟨hcode, hgood⟩ := (run_sound fuel).1 s _ p h
  obtain ⟨-, -, -, hcur, hdrop⟩ := hgood e rfl
  have hlen := congrArg List.length hdrop
  simp only [List.length_append, List.length_drop] at hlen
  have hk : 0 < (flattenExp e).length := List.length_pos.mpr (flattenExp_ne_nil e)
  refine ⟨hcode, by omega, by omega⟩

/-! ## Fuel sufficiency: the fuel `4 * (remaining input) + k` never runs out,
so the embedded parser is total. -/

theorem fuel_sufficient : ∀ fuel : Nat,
    (∀ s : Source, 4 * (s.code.length - s.cursor) + 2 ≤ fuel → (exp fuel s).isSome)
    ∧ (∀ s : Source, 4 * (s.code.length - s.cursor) + 1 ≤ fuel → (lp fuel s).isSome)
    ∧ (∀ s : Source, 4 * (s.code.length - s.cursor) + 4 ≤ fuel → (exp_list fuel s).isSome)
    ∧ (∀ (s : Source) (acc : List Expression),
        4 * (s.code.length - s.cursor) + 3 ≤ fuel → (exp_list_loop fuel s acc).isSome)
    ∧ (∀ (s : Source) (acc : List Expression),
        4 * (s.code.length - s.cursor) + 3 ≤ fuel → (parser_loop fuel s acc).isSome) := by
  intro fuel
  induction fuel with
  | zero =>
    refine ⟨?_, ?_, ?_, ?_, ?_⟩
    · intro s hle; omega
    · intro s hle; omega
    · intro s hle; omega
    · intro s acc hle; omega
    · intro s acc hle; omega
  | succ fuel ih =>
    obtain ⟨ihExp, ihLp, ihEL, ihLoop, ihPL⟩ := ih
    have hexpS : ∀ s : Source,
        4 * (s.code.length - s.cursor) + 2 ≤ fuel + 1 → (exp (fuel+1) s).isSome := by
      intro s hle
      have h1 : (lp fuel s).isSome := ihLp s (by omega)
      rcases hlo : lp fuel s with _ | ⟨r, p0⟩
      · rw [hlo] at h1; simp at h1
      · simp only [exp, hlo]
        rcases r with e0 | v0
        · simp only [attemptR]
          rw [sym_spec]
          by_cases hpl :
              ((p0.restore s.snapshot).code.getD (p0.restore s.snapshot).cursor
                Symbol.EoF).isPlain = true
          · rw [if_pos hpl]; simp [attemptR]
          · rw [if_neg hpl]; simp [attemptR]
        · simp [attemptR]
    have hlpS : ∀ s : Source,
        4 * (s.code.length - s.cursor) + 1 ≤ fuel + 1 → (lp (fuel+1) s).isSome := by
      intro s hle
      simp only [lp]
      by_cases hL : Symbol.LeftBracket ≠ s.next_symbol.1
      · rw [if_pos hL]; simp
      · rw [if_neg hL]
        have hL' : Symbol.LeftBracket = s.next_symbol.1 := not_not.mp (by simpa using hL)
        have hLeq : s.code.getD s.cursor Symbol.EoF = Symbol.LeftBracket := hL'.symm
        have hlt : s.cursor < s.code.length :=
          getD_lt_of_ne_default (by rw [hLeq]; simp)
        have h2 : (exp_list fuel s.next_symbol.2).isSome := by
          apply ihEL
          simp only [Source.next_symbol]
          omega
        rcases hel2 : exp_list fuel s.next_symbol.2 with _ | ⟨r, p2⟩
        · rw [hel2] at h2; simp at h2
        · rcases r with e1 | lst
          · simp [attemptR]
          · by_cases hR : Symbol.RightBracket ≠ p2.next_symbol.1
            · simp [attemptR, if_pos hR]
            · simp [attemptR, if_neg hR]
    have hELS : ∀ s : Source,
        4 * (s.code.length - s.cursor) + 4 ≤ fuel + 1 → (exp_list (fuel+1) s).isSome := by
      intro s hle
      have h1 : (exp_list_loop fuel s []).isSome := ihLoop s [] (by omega)
      rcases hl2 : exp_list_loop fuel s [] with _ | ⟨result, p0⟩
      · rw [hl2] at h1; simp at h1
      · simp only [exp_list, hl2]
        by_cases hemp : result.isEmpty
        · rw [if_pos hemp]; simp
        · rw [if_neg hemp]; simp
    have hLoopS : ∀ (s : Source) (acc : List Expression),
        4 * (s.code.length - s.cursor) + 3 ≤ fuel + 1 → (exp_list_loop (fuel+1) s acc).isSome := by
      intro s acc hle
      have h1 : (exp fuel s).isSome := ihExp s (by omega)
      rcases hexp0 : exp fuel s with _ | ⟨r, p0⟩
      · rw [hexp0] at h1; simp at h1
      · simp only [exp_list_loop, hexp0]
        rcases r with e0 | v0
        · simp [attemptR]
        · simp only [attemptR]
          obtain ⟨hcode, hcur1, hcur2⟩ := exp_progress hexp0
          apply ihLoop
          rw [hcode]
          omega
    have hPLS : ∀ (s : Source) (acc : List Expression),
        4 * (s.code.length - s.cursor) + 3 ≤ fuel + 1 → (parser_loop (fuel+1) s acc).isSome := by
      intro s acc hle
      have h1 : (exp fuel s).isSome := ihExp s (by omega)
      rcases hexp0 : exp fuel s with _ | ⟨r, p0⟩
      · rw [hexp0] at h1; simp at h1
      · simp only [parser_loop, hexp0]
        rcases r with e0 | v0
        · simp only [attemptR]
          split <;> simp
        · simp only [attemptR]
          obtain ⟨hcode, hcur1, hcur2⟩ := exp_progress hexp0
          apply ihPL
          rw [hcode]
          omega
    exact ⟨hexpS, hlpS, hELS, hLoopS, hPLS⟩

/-- The fuel chosen in `parser` suffices: the embedded parser is total. -/
theorem parser_total (code : List Symbol) : (parser code).isSome := by
  have h := (fuel_sufficient (4 * code.length + 3)).2.2.2.2 (Source.new code) []
    (by simp [Source.new])
  simp only [parser]
  rcases hpl : parser_loop (4 * code.length + 3) (Source.new code) [] with _ | r
  · rw [hpl] at h; simp at h
  · simp

/-- Every error surfaced by the driver loop is the attempt wrapper's generic
`parse error` value. -/
theorem parser_loop_error : ∀ (fuel : Nat) (s : Source) (acc : List Expression)
    (e : ParseErr) (p : Source),
    parser_loop fuel s acc = some (Except.error e, p) → e = ParseErr.parseError := by
  intro fuel
  induction fuel with
  | zero => intro s acc e p h; simp [parser_loop] at h
  | succ fuel ih =>
    intro s acc e p h
    simp only [parser_loop] at h
    split at h
    · exact absurd h (by simp)
    · next e' p' heq => exact ih _ _ _ _ h
    · next e1 p1 heq =>
      split at h
      · exact absurd h (by simp)
      · simp only [Option.some.injEq, Prod.mk.injEq, Except.error.injEq] at h
        rw [← h.1]
        exact (attemptR_error heq).1

/-- A successful driver run consumed exactly the flattening of its output,
ending at a (real or synthesised) end-of-input token; the output is
well-formed and bracket-balanced. -/
theorem parser_loop_ok : ∀ (fuel : Nat) (s : Source) (acc prog : List Expression) (p : Source),
    parser_loop fuel s acc = some (Except.ok prog, p) →
    ∃ nw, prog = acc ++ nw ∧ opsPlainList nw = true ∧ noEmptyLoopList nw = true ∧
      (flattenList nw).count Symbol.LeftBracket = (flattenList nw).count Symbol.RightBracket ∧
      s.code.drop s.cursor = flattenList nw ++ s.code.drop (s.cursor + (flattenList nw).length) ∧
      s.code.getD (s.cursor + (flattenList nw).length) Symbol.EoF = Symbol.EoF := by
  intro fuel
  induction fuel with
  | zero => intro s acc prog p h; simp [parser_loop] at h
  | succ fuel ih =>
    intro s acc prog p h
    simp only [parser_loop] at h
    split at h
    · exact absurd h (by simp)
    · next e p' heq =>
      have hexp0 := attemptR_ok heq
      obtain ⟨hcode, hge⟩ := (run_sound fuel).1 _ _ _ hexp0
      obtain ⟨hops, hnoe, hcnt, hcur, hdrop⟩ := hge e rfl
      obtain ⟨nw', hnw', hops', hnoe', hcnt', hdrop', hEoF'⟩ := ih _ _ _ _ h
      refine ⟨e :: nw', by simp [hnw'], ?_, ?_, ?_, ?_, ?_⟩
      · simp [opsPlainList, hops, hops']
      · simp [noEmptyLoopList, hnoe, hnoe']
      · simp only [flattenList, List.count_append]
        omega
      · simp only [flattenList, List.append_assoc]
        rw [hdrop]
        have harith : s.cursor + (flattenExp e ++ flattenList nw').length =
            p'.cursor + (flattenList nw').length := by
          simp only [List.length_append]; omega
        rw [harith, ← hcode, hdrop']
      · simp only [flattenList]
        have harith : s.cursor + (flattenExp e ++ flattenList nw').length =
            p'.cursor + (flattenList nw').length := by
          simp only [List.length_append]; omega
        rw [harith, ← hcode]
        exact hEoF'
    · next e1 p1 heq =>
      obtain ⟨-, e0, p0, hexp0, hp1⟩ := attemptR_error heq
      have hp0code : p0.code = s.code := ((run_sound fuel).1 _ _ _ hexp0).1
      have hp1code : p1.code = s.code := by rw [hp1, Source.restore_code, hp0code]
      have hp1cur : p1.cursor = s.cursor := by rw [hp1, Source.restore_cursor]; rfl
      split at h
      · next hEoF =>
        simp only [Option.some.injEq, Prod.mk.injEq, Except.ok.injEq] at h
        obtain ⟨hprog, -⟩ := h
        refine ⟨[], by simp [hprog], by simp [opsPlainList], by simp [noEmptyLoopList],
          by simp [flattenList], by simp [flattenList], ?_⟩
        simp only [flattenList, List.length_nil, Nat.add_zero]
        have : p1.code.getD p1.cursor Symbol.EoF = Symbol.EoF := by
          simpa [Source.next_symbol] using hEoF
        rw [hp1code, hp1cur] at this
        exact this
      · exact absurd h (by simp)

/-- Every error surfaced by `parser` is the generic `parse error` value. -/
theorem parser_error_sound {code : List Symbol} {e : ParseErr}
    (h : parser code = some (Except.error e)) : e = ParseErr.parseError := by
  simp only [parser] at h
  rcases hpl : parser_loop (4 * code.length + 3) (Source.new code) [] with _ | ⟨r, p⟩
  · rw [hpl] at h; simp at h
  · rw [hpl] at h
    have hr : r = Except.error e := by simpa using h
    rw [hr] at hpl
    exact parser_loop_error _ _ _ _ _ hpl

/-- A successful `parser` run: the output is well-formed and balanced, it
flattens to the consumed prefix of the input, and the first unconsumed
position holds a real or synthesised `EoF`. -/
theorem parser_ok_sound {code : List Symbol} {prog : List Expression}
    (h : parser code = some (Except.ok prog)) :
    opsPlainList prog = true ∧ noEmptyLoopList prog = true ∧
    (flattenList prog).count Symbol.LeftBracket = (flattenList prog).count Symbol.RightBracket ∧
    code = flattenList prog ++ code.drop (flattenList prog).length ∧
    code.getD (flattenList prog).length Symbol.EoF = Symbol.EoF := by
  simp only [parser] at h
  rcases hpl : parser_loop (4 * code.length + 3) (Source.new code) [] with _ | ⟨r, p⟩
  · rw [hpl] at h; simp at h
  · rw [hpl] at h
    have hr : r = Except.ok prog := by simpa using h
    rw [hr] at hpl
    obtain ⟨nw, hnw, hops, hnoe, hcnt, hdrop, hEoF⟩ := parser_loop_ok _ _ _ _ _ hpl
    simp only [List.nil_append] at hnw
    subst hnw
    refine ⟨hops, hnoe, hcnt, ?_, ?_⟩
    · simpa [Source.new] using hdrop
    · simpa [Source.new] using hEoF

/-- `lp` at a position reading `EoF` fails on its first token check. -/
theorem lp_at_eof (fuel : Nat) (s : Source)
    (h : s.code.getD s.cursor Symbol.EoF = Symbol.EoF) :
    lp (fuel + 1) s = some (Except.error (ParseErr.expectLeftBracket Symbol.EoF),
      { s with cursor := s.cursor + 1 }) := by
  have h' : s.code[s.cursor]?.getD Symbol.EoF = Symbol.EoF := by rw [← List.getD_eq_getElem?_getD]; exact h
  simp [lp, Source.next_symbol, h']

/-- `exp` at a position reading `EoF` fails with both alternatives. -/
theorem exp_at_eof (fuel : Nat) (s : Source)
    (h : s.code.getD s.cursor Symbol.EoF = Symbol.EoF) :
    exp (fuel + 2) s = some
      (Except.error (ParseErr.parseErrorContext ParseErr.parseError ParseErr.parseError),
       { code := s.code, cursor := s.cursor }) := by
  show exp ((fuel + 1) + 1) s = _
  simp only [exp]
  rw [lp_at_eof fuel s h]
  have h' : s.code[s.cursor]?.getD Symbol.EoF = Symbol.EoF := by rw [← List.getD_eq_getElem?_getD]; exact h
  simp [attemptR, sym, Source.next_symbol, Source.restore, Source.snapshot, h']

/-- The driver loop at a position reading `EoF`: the expression attempt
fails and the end-of-input check immediately succeeds with the accumulated
program. -/
theorem parser_loop_eof_start (fuel : Nat) (s : Source) (acc : List Expression)
    (h : s.code.getD s.cursor Symbol.EoF = Symbol.EoF) :
    parser_loop (fuel + 3) s acc =
      some (Except.ok acc, { code := s.code, cursor := s.cursor + 1 }) := by
  show parser_loop ((fuel + 2) + 1) s acc = _
  simp only [parser_loop]
  rw [exp_at_eof fuel s h]
  have h' : s.code[s.cursor]?.getD Symbol.EoF = Symbol.EoF := by rw [← List.getD_eq_getElem?_getD]; exact h
  simp [attemptR, Source.next_symbol, Source.restore, Source.snapshot, h']

/-! ## The specification claims -/

/-- C1: for the input `[LeftBracket, op, RightBracket, op2]` with `op` and
`op2` plain operator symbols, `parser` succeeds with exactly
`[Loop [Operator op], Operator op2]`. -/
theorem claim1 (op op2 : Symbol) (h1 : op.isPlain = true) (h2 : op2.isPlain = true) :
    parser [Symbol.LeftBracket, op, Symbol.RightBracket, op2] =
      some (Except.ok [Expression.Loop [Expression.Operator op],
        Expression.Operator op2]) := by
  cases op <;> cases op2 <;> first
    | rfl
    | simp [Symbol.isPlain] at h1 h2

theorem claim1_witness :
    parser [Symbol.LeftBracket, Symbol.PlusOne, Symbol.RightBracket, Symbol.MinusOne] =
      some (Except.ok [Expression.Loop [Expression.Operator Symbol.PlusOne],
        Expression.Operator Symbol.MinusOne]) :=
  claim1 Symbol.PlusOne Symbol.MinusOne rfl rfl

/-- C2: when the driver's expression attempt fails, the driver returns the
accumulated sequence as success exactly when the token read at the failure
point is `EoF`, and otherwise surfaces the attempt's failure; in particular
the empty input parses to the empty program. -/
theorem claim2 :
    (∀ (fuel : Nat) (s : Source) (acc : List Expression) (e : ParseErr) (p : Source),
      parse s (exp fuel) = some (Except.error e, p) →
      parser_loop (fuel+1) s acc =
        if p.next_symbol.1 = Symbol.EoF then some (Except.ok acc, p.next_symbol.2)
        else some (Except.error e, p.next_symbol.2))
    ∧ parser [] = some (Except.ok []) := by
  constructor
  · intro fuel s acc e p h
    simp only [parse] at h
    simp only [parser_loop, h]
  · rfl

theorem claim2_witness :
    parser_loop 3 (Source.new []) [] =
      if (Source.new []).next_symbol.1 = Symbol.EoF
      then some (Except.ok [], (Source.new []).next_symbol.2)
      else some (Except.error ParseErr.parseError, (Source.new []).next_symbol.2) :=
  claim2.1 2 (Source.new []) [] ParseErr.parseError (Source.new []) rfl

/-- C3: whenever a rule run through the `parse` attempt wrapper fails, the
cursor after the attempt equals the cursor before it, whatever tokens the
rule consumed. -/
theorem claim3 {α : Type} (s : Source) (rule : Source → Option (Except ParseErr α × Source))
    (e : ParseErr) (p : Source) (h : parse s rule = some (Except.error e, p)) :
    p.cursor = s.cursor := by
  simp only [parse] at h
  obtain ⟨-, e0, p0, -, hp⟩ := attemptR_error h
  rw [hp, Source.restore_cursor]
  rfl

theorem claim3_witness :
    parse { code := [Symbol.PlusOne], cursor := 0 } probeRule =
      some (Except.error ParseErr.parseError, { code := [Symbol.PlusOne], cursor := 0 }) ∧
    ({ code := [Symbol.PlusOne], cursor := 0 } : Source).cursor =
      ({ code := [Symbol.PlusOne], cursor := 0 } : Source).cursor :=
  ⟨rfl, claim3 { code := [Symbol.PlusOne], cursor := 0 } probeRule
    ParseErr.parseError { code := [Symbol.PlusOne], cursor := 0 } rfl⟩

/-- C4: every `Loop` occurring anywhere in a successfully parsed program
carries a non-empty expression list, and the empty-brackets input
`[LeftBracket, RightBracket]` fails to parse. -/
theorem claim4 :
    (∀ (code : List Symbol) (prog : List Expression),
      parser code = some (Except.ok prog) → noEmptyLoopList prog = true)
    ∧ parser [Symbol.LeftBracket, Symbol.RightBracket] =
        some (Except.error ParseErr.parseError) := by
  refine ⟨fun code prog h => (parser_ok_sound h).2.1, rfl⟩

theorem claim4_witness :
    parser [Symbol.LeftBracket, Symbol.PlusOne, Symbol.RightBracket] =
      some (Except.ok [Expression.Loop [Expression.Operator Symbol.PlusOne]]) ∧
    noEmptyLoopList [Expression.Loop [Expression.Operator Symbol.PlusOne]] = true :=
  ⟨rfl, claim4.1 [Symbol.LeftBracket, Symbol.PlusOne, Symbol.RightBracket]
    [Expression.Loop [Expression.Operator Symbol.PlusOne]] rfl⟩

/-- C5: `sym` reads exactly one token and succeeds with `Operator` of that
token iff the token is none of `LeftBracket`, `RightBracket`, `EoF` (failing
on those three); consequently every `Operator` in a successfully parsed
program wraps a plain symbol. -/
theorem claim5 :
    (∀ s : Source,
      (sym s = some (Except.ok (Expression.Operator s.next_symbol.1), s.next_symbol.2) ∨
       sym s = some (Except.error (ParseErr.expectSymbols s.next_symbol.1), s.next_symbol.2)) ∧
      (sym s = some (Except.ok (Expression.Operator s.next_symbol.1), s.next_symbol.2) ↔
        s.next_symbol.1 ≠ Symbol.LeftBracket ∧ s.next_symbol.1 ≠ Symbol.RightBracket ∧
        s.next_symbol.1 ≠ Symbol.EoF))
    ∧ (∀ (code : List Symbol) (prog : List Expression),
      parser code = some (Except.ok prog) → opsPlainList prog = true) := by
  constructor
  · intro s
    constructor
    · rcases hx : s.code[s.cursor]?.getD Symbol.EoF <;>
        simp [sym, Source.next_symbol, hx]
    · rcases hx : s.code[s.cursor]?.getD Symbol.EoF <;>
        simp [sym, Source.next_symbol, hx]
  · intro code prog h
    exact (parser_ok_sound h).1

theorem claim5_witness :
    parser [Symbol.PlusOne] = some (Except.ok [Expression.Operator Symbol.PlusOne]) ∧
    opsPlainList [Expression.Operator Symbol.PlusOne] = true :=
  ⟨rfl, claim5.2 [Symbol.PlusOne] [Expression.Operator Symbol.PlusOne] rfl⟩

/-- C6 as stated is false on the code: for the input
`[LeftBracket, PlusOne]`, which ends in an unmatched left bracket, the
parser does fail, but the surfaced diagnostic is the attempt wrapper's
generic `parse error` value, which is not of the "missing right bracket"
class (that specific message is discarded by the wrapper in
`src/syntax.rs`). -/
theorem claim6_counterexample :
    parser [Symbol.LeftBracket, Symbol.PlusOne] =
      some (Except.error ParseErr.parseError) ∧
    ParseErr.parseError.isMissingRightBracket = false :=
  ⟨rfl, rfl⟩

/-- C6 (amended): for every input without an explicit `EoF` token in which
left brackets outnumber right brackets — in particular one ending with an
unmatched `LeftBracket` — `parser` fails, and the surfaced diagnostic is
the attempt wrapper's generic `parse error` value, not the specific
missing-right-bracket message. -/
theorem claim6 (code : List Symbol) (hEoF : Symbol.EoF ∉ code)
    (hcnt : code.count Symbol.RightBracket < code.count Symbol.LeftBracket) :
    parser code = some (Except.error ParseErr.parseError) := by
  have htot := parser_total code
  rcases hp : parser code with _ | r
  · rw [hp] at htot; simp at htot
  · rcases r with e | prog
    · rw [parser_error_sound hp]
    · exfalso
      obtain ⟨-, -, hcnt', hcode, hEoFk⟩ := parser_ok_sound hp
      by_cases hkl : (flattenList prog).length < code.length
      · have hmem : code.getD (flattenList prog).length Symbol.EoF ∈ code := by
          rw [List.getD_eq_getElem code Symbol.EoF hkl]
          exact List.getElem_mem hkl
        rw [hEoFk] at hmem
        exact hEoF hmem
      · have hdropnil : code.drop (flattenList prog).length = [] :=
          List.drop_eq_nil_of_le (Nat.le_of_not_lt hkl)
        rw [hdropnil, List.append_nil] at hcode
        rw [hcode] at hcnt
        omega

theorem claim6_witness :
    Symbol.EoF ∉ [Symbol.LeftBracket, Symbol.PlusOne] ∧
    [Symbol.LeftBracket, Symbol.PlusOne].count Symbol.RightBracket <
      [Symbol.LeftBracket, Symbol.PlusOne].count Symbol.LeftBracket ∧
    parser [Symbol.LeftBracket, Symbol.PlusOne] =
      some (Except.error ParseErr.parseError) :=
  ⟨by decide, by decide,
    claim6 [Symbol.LeftBracket, Symbol.PlusOne] (by decide) (by decide)⟩

/-- C7: `next_symbol` returns the symbol at the current position and
advances the position by one; at or past the end of the sequence it returns
the `EoF` marker (and keeps doing so on further calls, the position still
advancing); it never fails. -/
theorem claim7 (s : Source) :
    (s.next_symbol.2.cursor = s.cursor + 1 ∧ s.next_symbol.2.code = s.code) ∧
    (∀ h : s.cursor < s.code.length, s.next_symbol.1 = s.code.get ⟨s.cursor, h⟩) ∧
    (s.code.length ≤ s.cursor → s.next_symbol.1 = Symbol.EoF) := by
  refine ⟨⟨rfl, rfl⟩, ?_, ?_⟩
  · intro h
    simp [Source.next_symbol, List.getElem?_eq_getElem h, List.get_eq_getElem]
  · intro h
    simp [Source.next_symbol, List.getElem?_eq_none h]

theorem claim7_witness :
    (Source.new [Symbol.PlusOne]).next_symbol.1 = Symbol.PlusOne ∧
    (Source.new []).next_symbol.1 = Symbol.EoF := by
  constructor
  · have h := (claim7 (Source.new [Symbol.PlusOne])).2.1 (by decide)
    simpa using h
  · exact (claim7 (Source.new [])).2.2 (by decide)

/-- C8: every successful expression-rule invocation strictly advances the
cursor, and the parser terminates with a result (success or failure value)
on every finite input. -/
theorem claim8 :
    (∀ (fuel : Nat) (s : Source) (e : Expression) (p : Source),
      exp fuel s = some (Except.ok e, p) → s.cursor < p.cursor)
    ∧ (∀ code : List Symbol, (parser code).isSome = true) :=
  ⟨fun _ _ _ _ h => (exp_progress h).2.1, fun code => parser_total code⟩

theorem claim8_witness :
    exp 3 (Source.new [Symbol.PlusOne]) =
      some (Except.ok (Expression.Operator Symbol.PlusOne),
        { code := [Symbol.PlusOne], cursor := 1 }) ∧
    (Source.new [Symbol.PlusOne]).cursor < 1 :=
  ⟨rfl, claim8.1 3 (Source.new [Symbol.PlusOne]) (Expression.Operator Symbol.PlusOne)
    { code := [Symbol.PlusOne], cursor := 1 } rfl⟩

/-- C9: the parser is total at its public interface: for every finite token
sequence it returns a result, either a program or a diagnostic; in the
embedding every token-buffer read is the total `getD` with `EoF` fallback,
so no read can fail. -/
theorem claim9 (code : List Symbol) :
    ∃ r : Except ParseErr (List Expression), parser code = some r := by
  have h := parser_total code
  rcases hp : parser code with _ | r
  · rw [hp] at h; simp at h
  · exact ⟨r, rfl⟩

/-- C10: if the driver's expression attempt fails at a position that holds
an explicit `EoF` token of the input itself, the driver succeeds with
exactly the expressions accumulated before that position, ignoring every
token after it; in particular `parser (EoF :: rest)` returns the empty
program for every `rest`. -/
theorem claim10 :
    (∀ (fuel : Nat) (s : Source) (acc : List Expression) (e : ParseErr) (p : Source),
      parse s (exp fuel) = some (Except.error e, p) →
      s.code.get? s.cursor = some Symbol.EoF →
      ∃ p2, parser_loop (fuel+1) s acc = some (Except.ok acc, p2))
    ∧ (∀ rest : List Symbol, parser (Symbol.EoF :: rest) = some (Except.ok [])) := by
  constructor
  · intro fuel s acc e p hparse hEoF
    simp only [parse] at hparse
    obtain ⟨-, e0, p0, hexp0, hp⟩ := attemptR_error hparse
    have hp0code : p0.code = s.code := ((run_sound fuel).1 _ _ _ hexp0).1
    have hpcode : p.code = s.code := by rw [hp, Source.restore_code, hp0code]
    have hpcur : p.cursor = s.cursor := by rw [hp, Source.restore_cursor]; rfl
    refine ⟨p.next_symbol.2, ?_⟩
    simp only [parser_loop, hparse]
    have hread : p.next_symbol.1 = Symbol.EoF := by
      simp only [Source.next_symbol, hpcode, hpcur]
      rw [List.getD_eq_getElem?_getD, ← List.get?_eq_getElem?, hEoF]
      rfl
    rw [if_pos hread]
  · intro rest
    have h3 : 4 * (Symbol.EoF :: rest).length + 3 = (4 * rest.length + 4) + 3 := by
      simp [List.length_cons]
      ring
    simp only [parser, h3]
    rw [parser_loop_eof_start (4 * rest.length + 4) (Source.new (Symbol.EoF :: rest)) []
      (by rfl)]
    rfl

theorem claim10_witness :
    ∃ p2, parser_loop 3 (Source.new [Symbol.EoF, Symbol.LeftBracket]) [] =
      some (Except.ok [], p2) :=
  claim10.1 2 (Source.new [Symbol.EoF, Symbol.LeftBracket]) [] ParseErr.parseError
    (Source.new [Symbol.EoF, Symbol.LeftBracket]) rfl rfl

end Rubf
